import Mathlib

/-!
# Kanji Terminator: verification of the conversion engine and batching pipeline

Shallow embedding of the tampermonkey-kanji-terminator repository:

* `Kakasi`: the server-side conversion engine
  (`src/kanji-to-hiragana-worker/src/kakasi/index.js`).  Text is modelled as
  `List Char` (Unicode code points); every character relevant to the claims is
  in the Basic Multilingual Plane, where JS UTF-16 indexing coincides with
  code-point indexing.
* `Worker`: the batch HTTP endpoint (`src/unnamed/part_000`).  The possibly
  throwing conversion call wrapped in `try`/`catch` is modelled by a parameter
  `f : Str → Option Str`, `none` standing for a thrown exception.
* `CacheService`, `DOMHandler`, `APIService`: the client userscript
  (`src/kanji.js`).  JS objects and `Map`s are modelled as association lists
  in insertion order: updating an existing key keeps its position, a new key
  is appended (exactly the enumeration-order semantics of JS string-keyed
  objects used by `Object.entries` and `for ... in`).  DOM sink nodes are
  modelled as opaque `Nat` identifiers and a `dataset.rt` assignment is
  recorded in a `written` log of `(key, sink, reading)` triples.
-/

/-- Association-list lookup, modelling JS object property read / `Map.get`. -/
def alookup {α β : Type} [DecidableEq α] : List (α × β) → α → Option β
  | [], _ => none
  | kv :: rest, k => if kv.1 = k then some kv.2 else alookup rest k

/-- Association-list update, modelling JS object property write / `Map.set`:
an existing key keeps its position, a new key is appended at the end. -/
def aset {α β : Type} [DecidableEq α] : List (α × β) → α → β → List (α × β)
  | [], k, v => [(k, v)]
  | kv :: rest, k, v => if kv.1 = k then (k, v) :: rest else kv :: aset rest k v

/-- Association-list removal, modelling the JS `delete` operator. -/
def aerase {α β : Type} [DecidableEq α] : List (α × β) → α → List (α × β)
  | [], _ => []
  | kv :: rest, k => if kv.1 = k then rest else kv :: aerase rest k

/-- Server-side text: a list of Unicode code points. -/
abbrev Str := List Char

namespace Kakasi

/-- A compound dictionary: kanji compound → hiragana reading. -/
abbrev Dict := List (Str × Str)

/-- `normalize` from `kakasi/index.js`: map each character through the
synonym table (`synDict[char] || char`). -/
def normalize (syn : List (Char × Char)) (text : Str) : Str :=
  text.map (fun c => (alookup syn c).getD c)

/-- Length of the longest key present in the dictionary. -/
def maxCompoundLen (dict : Dict) : Nat :=
  dict.foldl (fun m kv => max m kv.1.length) 0

/-- Modelled from the spec: the repository imports `convertKanjiCompound`
from `./kanji_converter`, which is not under `src/`.  Spec section 4.3:
the longest-match query checks candidate lengths from the maximum compound
length down to 1 and returns the first hit; length 0 signals no match; it
must not read past the end of the text.  `matchFrom` is the downward scan
starting at candidate length `n`. -/
def matchFrom (dict : Dict) (text : Str) : Nat → Str × Nat
  | 0 => ([], 0)
  | n + 1 =>
    match alookup dict (text.take (n + 1)) with
    | some reading => (reading, n + 1)
    | none => matchFrom dict text n

/-- Modelled from the spec (section 4.3, missing `./kanji_converter`):
`convertKanjiCompound(text, dict) -> (reading, count)`, the greedy
longest-match query, starting from the largest candidate length that
neither exceeds the maximum compound length nor reads past the end. -/
def convertKanjiCompound (text : Str) (dict : Dict) : Str × Nat :=
  matchFrom dict text (min (maxCompoundLen dict) text.length)

/-- The CJK Unified Ideographs test of `kanjiToHiragana`:
`code >= 0x4E00 && code <= 0x9FFF`. -/
def isCJK (c : Char) : Bool :=
  decide (0x4E00 ≤ c.toNat) && decide (c.toNat ≤ 0x9FFF)

/-- The scanning loop of `kanjiToHiragana` (on already-normalized text):
at a kanji character try the compound query, consuming `count` characters
on a hit, otherwise pass the character through; non-kanji characters pass
through unchanged.  `fuel` bounds the number of iterations; it is only a
structural-recursion device: every iteration consumes at least one
character, so starting the loop with `fuel = text.length` (as
`convertLoop` does) never exhausts it and the `fuel = 0` arm with text
remaining is unreachable. -/
def convertLoopF (dict : Dict) : Nat → Str → Str
  | _, [] => []
  | 0, _ :: _ => []
  | fuel + 1, c :: rest =>
    if isCJK c then
      if 0 < (convertKanjiCompound (c :: rest) dict).2 then
        (convertKanjiCompound (c :: rest) dict).1 ++
          convertLoopF dict fuel (List.drop (convertKanjiCompound (c :: rest) dict).2 (c :: rest))
      else c :: convertLoopF dict fuel rest
    else c :: convertLoopF dict fuel rest

/-- The `while (i < normalizedText.length)` loop of `kanjiToHiragana`. -/
def convertLoop (dict : Dict) (t : Str) : Str := convertLoopF dict t.length t

/-- `kanjiToHiragana` from `kakasi/index.js`: normalize, then scan. -/
def kanjiToHiragana (dict : Dict) (syn : List (Char × Char)) (text : Str) : Str :=
  convertLoop dict (normalize syn text)

end Kakasi

namespace Worker

/-- The whitespace test of `String.prototype.trim`: the ECMAScript
*WhiteSpace* production (tab, vertical tab, form feed, space, no-break
space, zero-width no-break space, and the Unicode space separators
U+1680, U+2000..U+200A, U+202F, U+205F and the ideographic space U+3000)
together with the *LineTerminator* production (line feed, carriage
return, line separator, paragraph separator). -/
def isJsWhitespace (c : Char) : Bool :=
  ['\t', '\x0b', '\x0c', ' ', '\u00A0', '\uFEFF',
    '\u1680', '\u2000', '\u2001', '\u2002', '\u2003', '\u2004', '\u2005',
    '\u2006', '\u2007', '\u2008', '\u2009', '\u200A', '\u202F', '\u205F',
    '\u3000', '\n', '\r', '\u2028', '\u2029'].contains c

/-- `text.trim()`: strip leading and trailing whitespace. -/
def jsTrim (s : Str) : Str :=
  ((s.dropWhile isJsWhitespace).reverse.dropWhile isJsWhitespace).reverse

/-- `getReadings` from `part_000`: empty or whitespace-only text short-circuits
to `""` without invoking the conversion engine; otherwise `kanjiToHiragana`. -/
def getReadings (dict : Kakasi.Dict) (syn : List (Char × Char)) (text : Str) : Str :=
  if text = [] ∨ jsTrim text = [] then [] else Kakasi.kanjiToHiragana dict syn text

/-- One step of `new Set(phrases)`: insert if not already present,
preserving first-occurrence order. -/
def jsSetInsert (acc : List Str) (x : Str) : List Str :=
  if x ∈ acc then acc else acc ++ [x]

/-- `[...new Set(phrases)]`: deduplication preserving first occurrences. -/
def jsDedup (l : List Str) : List Str := l.foldl jsSetInsert []

/-- The `for (let i = 0; i < l.length; i += chunkSize) slice(i, i + chunkSize)`
chunking loop.  For `chunkSize ≥ 1` this is exactly the JS loop; the source
uses a constant 20 (server) and 200 (client).  `fuel` is only a
structural-recursion device: every chunk consumes at least one element, so
starting with `fuel = l.length` (as `chunksOf` does) never exhausts it. -/
def chunksOfF {α : Type} (c : Nat) : Nat → List α → List (List α)
  | _, [] => []
  | 0, _ :: _ => []
  | fuel + 1, x :: xs => (x :: xs.take (c - 1)) :: chunksOfF c fuel (xs.drop (c - 1))

/-- The chunking of the unique phrases used by `processBatch`. -/
def chunksOf {α : Type} (c : Nat) (l : List α) : List (List α) := chunksOfF c l.length l

/-- The result a phrase contributes to the batch output: the conversion
result on success, `""` when the conversion threw (`catch` branch). -/
def convertSafe (f : Str → Option Str) (p : Str) : Str := (f p).getD []

/-- The `try`/`catch` body of the chunk loop in `processBatch`: on success
store the result in the results map, on an exception store `""` and log the
phrase's identity (the `console.error` call, modelled as an error log). -/
def batchStep (f : Str → Option Str) (acc : List (Str × Str) × List Str) (p : Str) :
    List (Str × Str) × List Str :=
  match f p with
  | some r => (aset acc.1 p r, acc.2)
  | none => (aset acc.1 p [], acc.2 ++ [p])

/-- `processBatch` from `part_000`, also returning the error log:
deduplicate, process the unique phrases in chunks filling a results map,
then map every original phrase to `resultsMap.get(phrase) || ""`.
`f` is the possibly-throwing `getReadings` call (`none` = thrown). -/
def processBatchFull (f : Str → Option Str) (chunkSize : Nat) (phrases : List Str) :
    List Str × List Str :=
  let uniq := jsDedup phrases
  let ml := (chunksOf chunkSize uniq).foldl (fun acc chunk => chunk.foldl (batchStep f) acc)
    ([], [])
  (phrases.map (fun p => (alookup ml.1 p).getD []), ml.2)

/-- The return value of `processBatch`. -/
def processBatch (f : Str → Option Str) (chunkSize : Nat) (phrases : List Str) : List Str :=
  (processBatchFull f chunkSize phrases).1

/-- The worker's HTTP response, restricted to what `handleRequest` can
produce for a parsed POST body: `ok` carries the `data` field (status 200),
`badRequest` the `error` field (status 400). -/
inductive WResp where
  | ok (data : Str)
  | badRequest (msg : Str)
deriving DecidableEq

/-- A parsed POST body: optional `text` and `texts` fields. -/
structure PostData where
  text : Option Str
  texts : Option (List Str)

/-- `text.split('\n')`. -/
def splitNl : Str → List Str
  | [] => [[]]
  | c :: rest =>
    match splitNl rest with
    | [] => [[c]]
    | h :: t => if c = '\n' then [] :: h :: t else (c :: h) :: t

/-- `results.join('\n')`. -/
def joinNl (l : List Str) : Str := List.intercalate ['\n'] l

/-- JS truthiness of an optional string field: present and non-empty. -/
def truthyStr : Option Str → Bool
  | some t => !t.isEmpty
  | none => false

/-- The POST branch of `handleRequest` from `part_000` on a parsed body:
reject when neither `text` nor `texts` is given; split `text` on newlines
keeping only phrases with non-empty trim, or keep the non-empty strings of
`texts`; reject when no phrase survives; otherwise answer with the
newline-join of `processBatch` on the surviving phrases. -/
def handlePost (f : Str → Option Str) (chunkSize : Nat) (d : PostData) : WResp :=
  if !truthyStr d.text && d.texts.isNone then
    .badRequest "Text or texts array is required".data
  else
    let phrases :=
      if truthyStr d.text then
        (splitNl (d.text.getD [])).filter (fun p => !(jsTrim p).isEmpty)
      else
        match d.texts with
        | some l => l.filter (fun p => !p.isEmpty)
        | none => []
    if phrases.isEmpty then
      .badRequest "No valid text phrases provided".data
    else
      .ok (joinNl (processBatch f chunkSize phrases))

end Worker

namespace CacheService

/-- `CONFIG.MAX_CACHE_SIZE` from `kanji.js`. -/
def MAX_CACHE_SIZE : Nat := 500

/-- The client cache: kanji substring → reading, in insertion order. -/
abbrev Cache := List (String × String)

/-- `CacheService.get`. -/
def get (c : Cache) (k : String) : Option String := alookup c k

/-- `CacheService.set`: `this.cache[kanji] = reading`. -/
def set (c : Cache) (k r : String) : Cache := aset c k r

/-- `CacheService.has`: `kanji in this.cache`. -/
def has (c : Cache) (k : String) : Bool := (alookup c k).isSome

/-- The truncation step of `CacheService.save`: when the entry count has
reached `MAX_CACHE_SIZE`, keep only the last `Math.floor(max * 0.75)`
entries of `Object.entries(this.cache)` (insertion order).  The subsequent
`GM_setValue` persistence is an external side effect outside the model. -/
def save (c : Cache) : Cache :=
  if MAX_CACHE_SIZE ≤ c.length then c.drop (c.length - MAX_CACHE_SIZE * 3 / 4) else c

end CacheService

/-- The client-side mutable state: the reading cache, the pending queue
(kanji substring → sink list, insertion order), and the log of ruby
writes (`node.dataset.rt = reading`) as `(key, sink, reading)` triples. -/
structure ClientState where
  cache : CacheService.Cache
  queue : List (String × List Nat)
  written : List (String × Nat × String)
deriving DecidableEq

namespace DOMHandler

/-- `DOMHandler.updateRubyFromCache`: look the reading up in the cache;
a missing or empty (falsy) reading returns without touching anything;
otherwise write the reading to every queued sink of the kanji and delete
the queue entry. -/
def updateRubyFromCache (s : ClientState) (k : String) : ClientState :=
  match CacheService.get s.cache k with
  | none => s
  | some reading =>
    if reading = "" then s
    else
      { cache := s.cache
        queue := aerase s.queue k
        written := s.written ++ ((alookup s.queue k).getD []).map (fun n => (k, n, reading)) }

end DOMHandler

namespace APIService

/-- The synchronous part of `APIService.convertToHiragana`: return the list
of kanji actually requested from the network, `none` when the request is
skipped (empty input, or everything already cached after the filter). -/
def convertToHiragana (cache : CacheService.Cache) (kanjis : List String) :
    Option (List String) :=
  if kanjis.isEmpty then none
  else
    let ks := kanjis.filter (fun k => !CacheService.has cache k)
    if ks.isEmpty then none else some ks

/-- One iteration of the `for (let kanji in queue)` loop of
`APIService.processQueue`: a cached kanji is resolved immediately via
`updateRubyFromCache`; otherwise it is pushed onto the current chunk, and a
full chunk (`chunk.length >= chunkSize`) is dispatched.  The accumulator is
`(state, current chunk, dispatched request payloads)`. -/
def passStep (chunkSize : Nat) (acc : ClientState × List String × List (List String))
    (k : String) : ClientState × List String × List (List String) :=
  match acc with
  | (s, chunk, disp) =>
    if CacheService.has s.cache k then
      (DOMHandler.updateRubyFromCache s k, chunk, disp)
    else
      let chunk1 := chunk ++ [k]
      if chunkSize ≤ chunk1.length then
        match convertToHiragana s.cache chunk1 with
        | some ks => (s, [], disp ++ [ks])
        | none => (s, [], disp)
      else (s, chunk1, disp)

/-- `APIService.processQueue`: iterate over the queued kanji, dispatch the
remainder chunk, then `CacheService.save()`.  Returns the new state and the
payloads of the dispatched (in-flight) requests; their responses are handled
separately by `onload`. -/
def processQueue (chunkSize : Nat) (s : ClientState) : ClientState × List (List String) :=
  match (s.queue.map Prod.fst).foldl (passStep chunkSize) (s, [], []) with
  | (s1, chunk, disp) =>
    let disp1 :=
      match convertToHiragana s1.cache chunk with
      | some ks => disp ++ [ks]
      | none => disp
    ({ s1 with cache := CacheService.save s1.cache }, disp1)

/-- The `onload` handler of `APIService.convertToHiragana`: pair the
response readings positionally with the requested kanji and, for each pair,
`CacheService.set` then `DOMHandler.updateRubyFromCache`. -/
def onload (s : ClientState) (kanjis readings : List String) : ClientState :=
  (kanjis.zip readings).foldl
    (fun s1 kr =>
      DOMHandler.updateRubyFromCache { s1 with cache := CacheService.set s1.cache kr.1 kr.2 }
        kr.1)
    s

/-- Deliver the responses of all dispatched chunks in order, the response
for a chunk being one reading `r k` per requested kanji `k`. -/
def runResponses (s : ClientState) (chunks : List (List String)) (r : String → String) :
    ClientState :=
  chunks.foldl (fun s1 ch => onload s1 ch (ch.map r)) s

/-- The per-key body of `onload` for a response that answers `r k` for the
key `k`: `CacheService.set` then `DOMHandler.updateRubyFromCache`. -/
def respStep (r : String → String) (s : ClientState) (k : String) : ClientState :=
  DOMHandler.updateRubyFromCache { s with cache := CacheService.set s.cache k (r k) } k

end APIService

/-- A 500-entry cache whose oldest entry is the poisoned pair
`("日", "")`: the keys `U+4E01 .. U+4FEB` are 499 distinct kanji distinct
from `日` (U+65E5).  At the next `save()` the oldest 125 entries — the
poisoned one among them — are evicted. -/
def evictionCache : CacheService.Cache :=
  ("日", "") :: (List.range 499).map (fun n => (String.mk [Char.ofNat (0x4E01 + n)], "よ"))

/-! ## Association list lemmas -/

theorem alookup_aset_self {α β : Type} [DecidableEq α] (m : List (α × β)) (k : α) (v : β) :
    alookup (aset m k v) k = some v := by
  induction m with
  | nil => simp [aset, alookup]
  | cons kv rest ih =>
    by_cases h : kv.1 = k
    · simp [aset, alookup, h]
    · simp [aset, alookup, h, ih]

theorem alookup_aset_ne {α β : Type} [DecidableEq α] (m : List (α × β)) (k k1 : α) (v : β)
    (h : k1 ≠ k) : alookup (aset m k v) k1 = alookup m k1 := by
  have hkk1 : ¬k = k1 := fun hc => h hc.symm
  induction m with
  | nil => simp [aset, alookup, hkk1]
  | cons kv rest ih =>
    by_cases hk : kv.1 = k
    · simp [aset, alookup, hk, hkk1]
    · simp only [aset, alookup, if_neg hk]
      by_cases hk1 : kv.1 = k1 <;> simp [alookup, hk1, ih]

theorem alookup_aerase_ne {α β : Type} [DecidableEq α] (m : List (α × β)) (k k1 : α)
    (h : k1 ≠ k) : alookup (aerase m k) k1 = alookup m k1 := by
  induction m with
  | nil => simp [aerase]
  | cons kv rest ih =>
    have hkk1 : ¬k = k1 := fun hc => h hc.symm
    by_cases hk : kv.1 = k
    · simp [aerase, alookup, hk, hkk1]
    · by_cases hk1 : kv.1 = k1 <;> simp [aerase, alookup, hk, hk1, h, ih]

theorem length_aset_of_none {α β : Type} [DecidableEq α] (m : List (α × β)) (k : α) (v : β)
    (h : alookup m k = none) : (aset m k v).length = m.length + 1 := by
  induction m with
  | nil => simp [aset]
  | cons kv rest ih =>
    simp only [alookup] at h
    by_cases hk : kv.1 = k
    · simp [hk] at h
    · simp only [if_neg hk] at h
      simp [aset, if_neg hk, ih h]

theorem mem_of_alookup_eq_some {α β : Type} [DecidableEq α] (m : List (α × β)) (k : α) (v : β)
    (h : alookup m k = some v) : (k, v) ∈ m := by
  induction m with
  | nil => simp [alookup] at h
  | cons kv rest ih =>
    obtain ⟨a, b⟩ := kv
    simp only [alookup] at h
    by_cases hk : a = k
    · simp only [if_pos hk] at h
      obtain ⟨hb⟩ := h
      subst hk
      simp_all
    · simp only [hk] at h
      exact List.mem_cons_of_mem _ (ih h)

theorem alookup_isSome_of_mem {α β : Type} [DecidableEq α] (m : List (α × β)) (k : α) (v : β)
    (h : (k, v) ∈ m) : (alookup m k).isSome := by
  induction m with
  | nil => simp at h
  | cons kv rest ih =>
    rcases List.mem_cons.mp h with h1 | h1
    · simp [alookup, ← h1]
    · by_cases hk : kv.1 = k <;> simp [alookup, hk, ih h1]

theorem alookup_eq_none_iff {α β : Type} [DecidableEq α] (m : List (α × β)) (k : α) :
    alookup m k = none ↔ k ∉ m.map Prod.fst := by
  induction m with
  | nil => simp [alookup]
  | cons kv rest ih =>
    simp only [alookup, List.map_cons, List.mem_cons]
    by_cases hk : kv.1 = k
    · simp [hk]
    · simp only [if_neg hk, ih]
      constructor
      · intro hn hc
        rcases hc with hc | hc
        · exact hk hc.symm
        · exact hn hc
      · intro hn hc
        exact hn (Or.inr hc)

theorem alookup_drop_none {α β : Type} [DecidableEq α] (m : List (α × β)) (k : α) (n : Nat)
    (h : alookup m k = none) : alookup (m.drop n) k = none := by
  rw [alookup_eq_none_iff] at h ⊢
  intro hmem
  apply h
  rw [List.map_drop] at hmem
  exact List.mem_of_mem_drop hmem

/-! ## Conversion engine lemmas -/

namespace Kakasi

theorem le_foldl_max (dict : Dict) (a : Nat) :
    a ≤ dict.foldl (fun m kv => max m kv.1.length) a := by
  induction dict generalizing a with
  | nil => exact Nat.le_refl a
  | cons kv rest ih =>
    exact Nat.le_trans (Nat.le_max_left a kv.1.length) (ih (max a kv.1.length))

theorem length_le_maxCompoundLen (dict : Dict) (kv : Str × Str) (h : kv ∈ dict) :
    kv.1.length ≤ maxCompoundLen dict := by
  unfold maxCompoundLen
  generalize 0 = a
  induction dict generalizing a with
  | nil => simp at h
  | cons kv1 rest ih =>
    rcases List.mem_cons.mp h with h1 | h1
    · subst h1
      exact Nat.le_trans (Nat.le_max_right a kv.1.length) (le_foldl_max rest _)
    · exact ih h1 _

theorem matchFrom_ge (dict : Dict) (text : Str) (L n : Nat) (h1 : 1 ≤ L) (hn : L ≤ n)
    (hs : (alookup dict (text.take L)).isSome) : L ≤ (matchFrom dict text n).2 := by
  induction n with
  | zero => omega
  | succ n ih =>
    rw [matchFrom]
    cases hl : alookup dict (text.take (n + 1)) with
    | some reading => simpa using hn
    | none =>
      have hne : L ≠ n + 1 := by
        intro hc
        rw [hc, hl] at hs
        simp at hs
      exact ih (by omega)

theorem matchFrom_eq_zero (dict : Dict) (text : Str) (n : Nat)
    (h : ∀ L, 1 ≤ L → L ≤ n → alookup dict (text.take L) = none) :
    matchFrom dict text n = ([], 0) := by
  induction n with
  | zero => rfl
  | succ n ih =>
    rw [matchFrom, h (n + 1) (by omega) (by omega)]
    exact ih fun L hL1 hLn => h L hL1 (by omega)

theorem convertKanjiCompound_count_zero (dict : Dict) (text : Str)
    (h : ∀ key rd, (key, rd) ∈ dict → ¬(key ≠ [] ∧ key <+: text)) :
    convertKanjiCompound text dict = ([], 0) := by
  unfold convertKanjiCompound
  apply matchFrom_eq_zero
  intro L hL1 hLn
  cases hl : alookup dict (text.take L) with
  | none => rfl
  | some rd =>
    exfalso
    have hmem := mem_of_alookup_eq_some dict (text.take L) rd hl
    apply h (text.take L) rd hmem
    constructor
    · have htl : (text.take L).length = L := by
        rw [List.length_take]
        omega
      intro hc
      rw [hc] at htl
      simp at htl
      omega
    · exact List.take_prefix L text

theorem convertLoop_nil (dict : Dict) : convertLoop dict [] = [] := rfl

theorem convertLoop_cons_zero (dict : Dict) (c : Char) (rest : Str)
    (hz : convertKanjiCompound (c :: rest) dict = ([], 0)) :
    convertLoop dict (c :: rest) = c :: convertLoop dict rest := by
  by_cases hk : isCJK c <;>
    simp [convertLoop, convertLoopF, List.length_cons, hk, hz]

theorem normalize_nil (syn : List (Char × Char)) : normalize syn [] = [] := rfl

end Kakasi

/-- C4: the dictionary query checks candidate compound lengths from the
maximum compound length down to 1 and returns the first hit, so a shorter
dictionary match is never chosen when a longer key also matches at that
position (the returned count is at least the length of any matching key);
in particular, with keys "日本" and "日" present, conversion of "日本語"
consumes the 2-character compound at position 0, yielding "にほんご". -/
theorem longest_match_correct (dict : Kakasi.Dict) (text key rd : Str)
    (hmem : (key, rd) ∈ dict) (hpre : key = text.take key.length)
    (h1 : 1 ≤ key.length) (hle : key.length ≤ text.length) :
    key.length ≤ (Kakasi.convertKanjiCompound text dict).2
    ∧ Kakasi.kanjiToHiragana
        [("日本".data, "にほん".data), ("日".data, "ひ".data), ("語".data, "ご".data)] []
        "日本語".data = "にほんご".data := by
  constructor
  · unfold Kakasi.convertKanjiCompound
    apply Kakasi.matchFrom_ge
    · exact h1
    · have := Kakasi.length_le_maxCompoundLen dict (key, rd) hmem
      simp only [Nat.le_min]
      exact ⟨this, hle⟩
    · rw [← hpre]
      exact alookup_isSome_of_mem dict key rd hmem
  · decide

/-- C4 witness: with the dictionary of the claim's example, the key "日本"
matches "日本語" at position 0 and the query consumes at least its two
characters; the full conversion yields "にほんご". -/
theorem longest_match_correct_witness :
    "日本".data.length ≤
      (Kakasi.convertKanjiCompound "日本語".data
        [("日本".data, "にほん".data), ("日".data, "ひ".data), ("語".data, "ご".data)]).2
    ∧ Kakasi.kanjiToHiragana
        [("日本".data, "にほん".data), ("日".data, "ひ".data), ("語".data, "ご".data)] []
        "日本語".data = "にほんご".data :=
  longest_match_correct _ _ _ "にほん".data (by decide) (by decide) (by decide) (by decide)

/-- C7: a character at which the longest-match query finds no dictionary key
(no key is a non-empty prefix of the remaining text) is emitted verbatim by
the scanning loop, which then continues after it; and the empty input yields
the empty output. -/
theorem unmatched_passthrough (dict : Kakasi.Dict) (syn : List (Char × Char)) (c : Char)
    (rest : Str) (hno : ∀ key rd, (key, rd) ∈ dict → ¬(key ≠ [] ∧ key <+: (c :: rest))) :
    Kakasi.convertLoop dict (c :: rest) = c :: Kakasi.convertLoop dict rest
    ∧ Kakasi.kanjiToHiragana dict syn [] = [] := by
  have hz := Kakasi.convertKanjiCompound_count_zero dict (c :: rest) hno
  constructor
  · exact Kakasi.convertLoop_cons_zero dict c rest hz
  · unfold Kakasi.kanjiToHiragana
    rw [Kakasi.normalize_nil, Kakasi.convertLoop_nil]

/-- C7 witness: with a dictionary containing only "日", the kanji "語" has no
entry at any length and passes through verbatim; the empty input maps to the
empty output. -/
theorem unmatched_passthrough_witness :
    Kakasi.convertLoop [("日".data, "にち".data)] ['語']
        = '語' :: Kakasi.convertLoop [("日".data, "にち".data)] []
    ∧ Kakasi.kanjiToHiragana [("日".data, "にち".data)] [] [] = [] := by
  apply unmatched_passthrough
  intro key rd hmem
  simp only [List.mem_singleton, Prod.mk.injEq] at hmem
  rw [hmem.1]
  decide

/-! ## Batch processor lemmas -/

theorem foldl_foldl_flatten {α β : Type} (g : β → α → β) (L : List (List α)) (b : β) :
    L.foldl (fun acc ch => ch.foldl g acc) b = L.flatten.foldl g b := by
  induction L generalizing b with
  | nil => rfl
  | cons ch L ih => simp [List.foldl_append, ih]

namespace Worker

theorem chunksOfF_fuel_irrel {α : Type} (c : Nat) :
    ∀ (f1 f2 : Nat) (l : List α), l.length ≤ f1 → l.length ≤ f2 →
      chunksOfF c f1 l = chunksOfF c f2 l := by
  intro f1
  induction f1 with
  | zero =>
    intro f2 l h1 h2
    rw [List.length_eq_zero.mp (Nat.le_zero.mp h1)]
    cases f2 <;> rfl
  | succ f1 ih =>
    intro f2 l h1 h2
    cases l with
    | nil => cases f2 <;> rfl
    | cons x xs =>
      simp only [List.length_cons] at h1 h2
      cases f2 with
      | zero => omega
      | succ f2 =>
        simp only [chunksOfF]
        rw [ih f2 (xs.drop (c - 1)) (by simp only [List.length_drop]; omega)
          (by simp only [List.length_drop]; omega)]

theorem chunksOf_nil {α : Type} (c : Nat) : chunksOf c ([] : List α) = [] := rfl

theorem chunksOf_cons {α : Type} (c : Nat) (x : α) (xs : List α) :
    chunksOf c (x :: xs) = (x :: xs.take (c - 1)) :: chunksOf c (xs.drop (c - 1)) := by
  unfold chunksOf
  simp only [List.length_cons, chunksOfF]
  rw [chunksOfF_fuel_irrel c xs.length (xs.drop (c - 1)).length (xs.drop (c - 1))
    (by simp only [List.length_drop]; omega) le_rfl]

theorem chunksOf_flatten_aux {α : Type} (c : Nat) :
    ∀ (n : Nat) (l : List α), l.length ≤ n → (chunksOf c l).flatten = l := by
  intro n
  induction n with
  | zero =>
    intro l hl
    rw [List.length_eq_zero.mp (Nat.le_zero.mp hl), chunksOf_nil]
    rfl
  | succ n ih =>
    intro l hl
    cases l with
    | nil => rw [chunksOf_nil]; rfl
    | cons x xs =>
      rw [chunksOf_cons]
      simp only [List.flatten_cons]
      simp only [List.length_cons] at hl
      rw [ih (xs.drop (c - 1)) (by simp only [List.length_drop]; omega)]
      simp [List.take_append_drop]

theorem chunksOf_flatten {α : Type} (c : Nat) (l : List α) : (chunksOf c l).flatten = l :=
  chunksOf_flatten_aux c l.length l le_rfl

theorem mem_jsSetInsert (acc : List Str) (x p : Str) :
    p ∈ jsSetInsert acc x ↔ p ∈ acc ∨ p = x := by
  unfold jsSetInsert
  by_cases h : x ∈ acc
  · simp only [if_pos h]
    constructor
    · exact Or.inl
    · rintro (hp | hp)
      · exact hp
      · exact hp ▸ h
  · simp [if_neg h]

theorem mem_jsSetFold (l : List Str) (acc : List Str) (p : Str) :
    p ∈ l.foldl jsSetInsert acc ↔ p ∈ acc ∨ p ∈ l := by
  induction l generalizing acc with
  | nil => simp
  | cons x xs ih =>
    simp only [List.foldl_cons, ih, mem_jsSetInsert, List.mem_cons]
    tauto

theorem mem_jsDedup (l : List Str) (p : Str) : p ∈ jsDedup l ↔ p ∈ l := by
  simp [jsDedup, mem_jsSetFold]

theorem alookup_batchFold (f : Str → Option Str) (l : List Str)
    (m0 : List (Str × Str)) (log0 : List Str) (p : Str) :
    alookup (l.foldl (batchStep f) (m0, log0)).1 p
      = if p ∈ l then some (convertSafe f p) else alookup m0 p := by
  induction l generalizing m0 log0 with
  | nil => simp
  | cons x xs ih =>
    have hstep : ∀ log1 : List Str, ∃ log2 : List Str,
        batchStep f (m0, log1) x = (aset m0 x (convertSafe f x), log2) := by
      intro log1
      cases hf : f x with
      | some r => exact ⟨log1, by simp [batchStep, hf, convertSafe]⟩
      | none => exact ⟨log1 ++ [x], by simp [batchStep, hf, convertSafe]⟩
    obtain ⟨log2, hlog2⟩ := hstep log0
    rw [List.foldl_cons, hlog2, ih]
    by_cases hx : p ∈ xs
    · simp [hx]
    · by_cases hp : p = x
      · subst hp
        simp [hx, alookup_aset_self]
      · simp [hx, hp, alookup_aset_ne _ _ _ _ hp]

theorem log_batchFold (f : Str → Option Str) (l : List Str)
    (m0 : List (Str × Str)) (log0 : List Str) :
    (l.foldl (batchStep f) (m0, log0)).2 = log0 ++ l.filter (fun p => (f p).isNone) := by
  induction l generalizing m0 log0 with
  | nil => simp
  | cons x xs ih =>
    cases hf : f x with
    | some r => simp [batchStep, hf, ih]
    | none => simp [batchStep, hf, ih, List.filter_cons]

theorem processBatch_eq_map (f : Str → Option Str) (cs : Nat) (P : List Str) :
    processBatch f cs P = P.map (convertSafe f) := by
  unfold processBatch processBatchFull
  simp only [foldl_foldl_flatten, chunksOf_flatten]
  apply List.map_congr_left
  intro p hp
  rw [alookup_batchFold]
  simp [(mem_jsDedup P p).mpr hp]

theorem processBatchFull_log (f : Str → Option Str) (cs : Nat) (P : List Str) :
    (processBatchFull f cs P).2 = (jsDedup P).filter (fun p => (f p).isNone) := by
  unfold processBatchFull
  simp only [foldl_foldl_flatten, chunksOf_flatten]
  rw [log_batchFold]
  simp

end Worker

/-- C1: for every phrase list `P` (duplicates allowed) and every chunk size
`≥ 1` (the source fixes 20), `processBatch` returns a list of the same
length as `P` whose `i`-th element is the converted reading of `P[i]`
(the conversion result, or `""` when it threw); the result equals the plain
per-phrase map, so it is independent of the internal deduplication and
chunking. -/
theorem processBatch_order_preservation (f : Str → Option Str) (cs : Nat) (P : List Str)
    (hcs : 1 ≤ cs) :
    (Worker.processBatch f cs P).length = P.length
    ∧ Worker.processBatch f cs P = P.map (Worker.convertSafe f) := by
  rw [Worker.processBatch_eq_map]
  exact ⟨List.length_map P _, rfl⟩

/-- C1 witness: a concrete batch with a duplicate phrase, chunk size 1. -/
theorem processBatch_order_preservation_witness :
    1 ≤ 1
    ∧ ((Worker.processBatch (fun t => some (t ++ t)) 1 [['a'], ['b'], ['a']]).length
          = [['a'], ['b'], ['a']].length
        ∧ Worker.processBatch (fun t => some (t ++ t)) 1 [['a'], ['b'], ['a']]
          = [['a'], ['b'], ['a']].map (Worker.convertSafe (fun t => some (t ++ t)))) :=
  ⟨by decide, processBatch_order_preservation (fun t => some (t ++ t)) 1 _ (by decide)⟩

/-- C6: a conversion failure (exception, modelled as `f p = none`) for one
phrase does not abort `processBatch`: the failing phrase's position in the
output is the empty string, its identity appears in the error log, and every
phrase whose conversion succeeds still gets its converted value at its
position. -/
theorem processBatch_error_isolation (f : Str → Option Str) (cs : Nat) (P : List Str)
    (i : Nat) (hcs : 1 ≤ cs) (hi : i < P.length) (hf : f (P.get ⟨i, hi⟩) = none)
    (hlen : i < (Worker.processBatch f cs P).length) :
    (Worker.processBatch f cs P).get ⟨i, hlen⟩ = []
    ∧ P.get ⟨i, hi⟩ ∈ (Worker.processBatchFull f cs P).2
    ∧ ∀ (j : Nat) (hj : j < P.length) (hlj : j < (Worker.processBatch f cs P).length)
        (r : Str), f (P.get ⟨j, hj⟩) = some r →
          (Worker.processBatch f cs P).get ⟨j, hlj⟩ = r := by
  refine ⟨?_, ?_, ?_⟩
  · rw [List.get_of_eq (Worker.processBatch_eq_map f cs P)]
    simp only [List.get_eq_getElem, List.getElem_map]
    simp only [List.get_eq_getElem] at hf
    simp [Worker.convertSafe, hf]
  · rw [Worker.processBatchFull_log]
    rw [List.mem_filter]
    constructor
    · exact (Worker.mem_jsDedup P _).mpr (P.get_mem _ _)
    · simp only [List.get_eq_getElem] at hf
      simp [hf]
  · intro j hj hlj r hr
    rw [List.get_of_eq (Worker.processBatch_eq_map f cs P)]
    simp only [List.get_eq_getElem, List.getElem_map]
    simp only [List.get_eq_getElem] at hr
    simp [Worker.convertSafe, hr]

/-- C6 witness: the middle phrase of three throws; it maps to `""` and is
logged, while the two successful phrases keep their readings. -/
theorem processBatch_error_isolation_witness :
    1 ≤ 2
    ∧ 1 < ([['a'], ['b'], ['c']] : List Str).length
    ∧ (fun t : Str => if t = ['b'] then none else some (t ++ t)) ['b'] = none
    ∧ ((Worker.processBatch (fun t : Str => if t = ['b'] then none else some (t ++ t)) 2
          [['a'], ['b'], ['c']]).get ⟨1, by decide⟩ = []
        ∧ ['b'] ∈ (Worker.processBatchFull
            (fun t : Str => if t = ['b'] then none else some (t ++ t)) 2
            [['a'], ['b'], ['c']]).2
        ∧ ∀ (j : Nat) (hj : j < ([['a'], ['b'], ['c']] : List Str).length)
            (hlj : j < (Worker.processBatch
              (fun t : Str => if t = ['b'] then none else some (t ++ t)) 2
              [['a'], ['b'], ['c']]).length)
            (r : Str),
            (fun t : Str => if t = ['b'] then none else some (t ++ t))
                (([['a'], ['b'], ['c']] : List Str).get ⟨j, hj⟩) = some r →
              (Worker.processBatch (fun t : Str => if t = ['b'] then none else some (t ++ t)) 2
                [['a'], ['b'], ['c']]).get ⟨j, hlj⟩ = r) :=
  ⟨by decide, by decide, by decide,
    processBatch_error_isolation _ 2 _ 1 (by decide) (by decide) (by decide) (by decide)⟩

/-! ## Whitespace phrases and the HTTP batch endpoint -/

namespace Worker

theorem jsTrim_nil_of_all_ws (t : Str) (h : ∀ c ∈ t, isJsWhitespace c = true) :
    jsTrim t = [] := by
  unfold jsTrim
  rw [List.dropWhile_eq_nil_iff.mpr h]
  rfl

theorem getReadings_ws (dict : Kakasi.Dict) (syn : List (Char × Char)) (t : Str)
    (h : ∀ c ∈ t, isJsWhitespace c = true) : getReadings dict syn t = [] := by
  unfold getReadings
  rw [if_pos (Or.inr (jsTrim_nil_of_all_ws t h))]

end Worker

/-- C10: a phrase that is empty or consists only of whitespace characters is
answered `""` by `getReadings` before the conversion engine is consulted
(the result is the same for every dictionary and synonym table), so such a
phrase is mapped to `""` at its position in the `processBatch` output rather
than being passed through literally. -/
theorem whitespace_phrase_empty_result (dict : Kakasi.Dict) (syn : List (Char × Char))
    (t : Str) (cs : Nat) (P : List Str) (i : Nat)
    (hw : ∀ c ∈ t, Worker.isJsWhitespace c = true) (hcs : 1 ≤ cs) (hi : i < P.length)
    (hp : P.get ⟨i, hi⟩ = t)
    (hlen : i < (Worker.processBatch (fun u => some (Worker.getReadings dict syn u)) cs P).length) :
    Worker.getReadings dict syn t = []
    ∧ (Worker.processBatch (fun u => some (Worker.getReadings dict syn u)) cs P).get
        ⟨i, hlen⟩ = [] := by
  refine ⟨Worker.getReadings_ws dict syn t hw, ?_⟩
  rw [List.get_of_eq (Worker.processBatch_eq_map _ cs P)]
  simp only [List.get_eq_getElem, List.getElem_map]
  simp only [List.get_eq_getElem] at hp
  rw [hp]
  simp [Worker.convertSafe, Worker.getReadings_ws dict syn t hw]

/-- C10 witness: a phrase consisting of one ideographic space (U+3000, the
whitespace character standard in Japanese text) in a two-phrase batch maps
to `""`, with an arbitrary one-entry dictionary. -/
theorem whitespace_phrase_empty_result_witness :
    (∀ c ∈ ['\u3000'], Worker.isJsWhitespace c = true)
    ∧ (Worker.getReadings [("日".data, "にち".data)] [] ['\u3000'] = []
        ∧ (Worker.processBatch
            (fun u => some (Worker.getReadings [("日".data, "にち".data)] [] u)) 20
            [['a'], ['\u3000']]).get ⟨1, by decide⟩ = []) :=
  ⟨by decide,
    whitespace_phrase_empty_result [("日".data, "にち".data)] [] ['\u3000'] 20
      [['a'], ['\u3000']] 1
      (by decide) (by decide) (by decide) (by decide) (by decide)⟩

/-- C5 counterexample: the claim says input `["火曜日", "", "火曜日"]` yields
the three lines `["かようび", "", "かようび"]`; on the code, the `texts`
filter `phrase && typeof phrase === 'string'` drops the empty phrase before
`processBatch`, so the response data is `"かようび\nかようび"` — two lines
for three input phrases, with no empty line for the empty phrase. -/
theorem handlePost_drops_empty_phrase :
    Worker.handlePost
        (fun t => some (Worker.getReadings [("火曜日".data, "かようび".data)] [] t)) 20
        ⟨none, some ["火曜日".data, [], "火曜日".data]⟩
      = Worker.WResp.ok "かようび\nかようび".data
    ∧ Worker.splitNl "かようび\nかようび".data = ["かようび".data, "かようび".data]
    ∧ Worker.splitNl "かようび\nかようび".data ≠ ["かようび".data, [], "かようび".data] := by
  refine ⟨by decide, by decide, by decide⟩

/-- C5 amended: for both request forms, the response body is the
newline-join of the per-phrase results of the phrases that survive the
input filter — the `text` path splits on newlines and drops phrases whose
trim is empty, the `texts` path drops empty phrases — in input order, one
result per surviving phrase (including `""`, an empty line, for a
surviving phrase whose conversion fails); dropped phrases are *not*
represented in the output, so `["火曜日", "", "火曜日"]` yields the two
lines `["かようび", "かようび"]`. -/
theorem handlePost_joins_surviving_results (f : Str → Option Str) (cs : Nat)
    (t : Str) (otexts : Option (List Str)) (texts : List Str)
    (ht : t ≠ [])
    (htext : (Worker.splitNl t).filter (fun p => !(Worker.jsTrim p).isEmpty) ≠ [])
    (htexts : texts.filter (fun p => !p.isEmpty) ≠ []) :
    (Worker.handlePost f cs ⟨some t, otexts⟩
        = Worker.WResp.ok
            (Worker.joinNl
              (((Worker.splitNl t).filter (fun p => !(Worker.jsTrim p).isEmpty)).map
                (Worker.convertSafe f)))
      ∧ (((Worker.splitNl t).filter (fun p => !(Worker.jsTrim p).isEmpty)).map
            (Worker.convertSafe f)).length
          = ((Worker.splitNl t).filter (fun p => !(Worker.jsTrim p).isEmpty)).length)
    ∧ (Worker.handlePost f cs ⟨none, some texts⟩
        = Worker.WResp.ok
            (Worker.joinNl ((texts.filter (fun p => !p.isEmpty)).map (Worker.convertSafe f)))
      ∧ ((texts.filter (fun p => !p.isEmpty)).map (Worker.convertSafe f)).length
          = (texts.filter (fun p => !p.isEmpty)).length) := by
  refine ⟨⟨?_, by simp⟩, ⟨?_, by simp⟩⟩
  · simp [Worker.handlePost, Worker.truthyStr, List.isEmpty_iff, ht, htext,
      Worker.processBatch_eq_map]
  · simp [Worker.handlePost, Worker.truthyStr, List.isEmpty_iff, htexts,
      Worker.processBatch_eq_map]

/-- C5 amended witness: on the `text` path a newline-separated batch whose
middle line is an ideographic space (dropped by the trim filter), on the
`texts` path a list whose middle phrase is empty (dropped by the truthiness
filter); both answer one line per surviving phrase. -/
theorem handlePost_joins_surviving_results_witness :
    ("火曜日\n\u3000\n火曜日".data ≠ [])
    ∧ ((Worker.splitNl "火曜日\n\u3000\n火曜日".data).filter
        (fun p => !(Worker.jsTrim p).isEmpty) ≠ [])
    ∧ (["火曜日".data, [], "火曜日".data].filter (fun p : Str => !p.isEmpty) ≠ [])
    ∧ ((Worker.handlePost (fun u => some u) 20
          ⟨some "火曜日\n\u3000\n火曜日".data, none⟩
          = Worker.WResp.ok
              (Worker.joinNl
                (((Worker.splitNl "火曜日\n\u3000\n火曜日".data).filter
                    (fun p => !(Worker.jsTrim p).isEmpty)).map
                  (Worker.convertSafe (fun u => some u))))
        ∧ (((Worker.splitNl "火曜日\n\u3000\n火曜日".data).filter
              (fun p => !(Worker.jsTrim p).isEmpty)).map
            (Worker.convertSafe (fun u => some u))).length
            = ((Worker.splitNl "火曜日\n\u3000\n火曜日".data).filter
                (fun p => !(Worker.jsTrim p).isEmpty)).length)
      ∧ (Worker.handlePost (fun u => some u) 20 ⟨none, some ["火曜日".data, [], "火曜日".data]⟩
          = Worker.WResp.ok
              (Worker.joinNl ((["火曜日".data, [], "火曜日".data].filter
                  (fun p : Str => !p.isEmpty)).map (Worker.convertSafe (fun u => some u))))
        ∧ ((["火曜日".data, [], "火曜日".data].filter (fun p : Str => !p.isEmpty)).map
              (Worker.convertSafe (fun u => some u))).length
            = (["火曜日".data, [], "火曜日".data].filter
                (fun p : Str => !p.isEmpty)).length)) :=
  ⟨by decide, by decide, by decide,
    handlePost_joins_surviving_results (fun u => some u) 20
      "火曜日\n\u3000\n火曜日".data none ["火曜日".data, [], "火曜日".data]
      (by decide) (by decide) (by decide)⟩

/-! ## Bounded cache -/

/-- C2: whenever `save()` finds at least `MAX_CACHE_SIZE = 500` entries, the
truncation retains exactly `floor(500 * 0.75) = 375` entries, namely the
trailing 375 entries of the insertion-ordered entry list (a suffix, i.e. the
375 most recently inserted; `get` reads never reorder entries in this
model, so this is insertion order, not access order). -/
theorem cacheSave_eviction (c : CacheService.Cache) (h : 500 ≤ c.length) :
    (CacheService.save c).length = 375
    ∧ CacheService.save c = c.drop (c.length - 375)
    ∧ CacheService.save c <:+ c := by
  have hmax : CacheService.MAX_CACHE_SIZE = 500 := rfl
  have hkeep : (500 : Nat) * 3 / 4 = 375 := rfl
  unfold CacheService.save
  rw [hmax, hkeep, if_pos h]
  refine ⟨?_, rfl, List.drop_suffix _ _⟩
  rw [List.length_drop]
  omega

/-- C2 witness: a cache of exactly 500 entries. -/
theorem cacheSave_eviction_witness :
    500 ≤ ((List.range 500).map (fun n => (toString n, ""))).length
    ∧ ((CacheService.save ((List.range 500).map (fun n => (toString n, "")))).length = 375
        ∧ CacheService.save ((List.range 500).map (fun n => (toString n, "")))
          = ((List.range 500).map (fun n => (toString n, ""))).drop
              (((List.range 500).map (fun n => (toString n, ""))).length - 375)
        ∧ CacheService.save ((List.range 500).map (fun n => (toString n, "")))
          <:+ (List.range 500).map (fun n => (toString n, ""))) :=
  ⟨by simp, cacheSave_eviction _ (by simp)⟩

theorem foldl_set_length (ks : List String) :
    ∀ c : CacheService.Cache, ks.Nodup → (∀ k ∈ ks, alookup c k = none) →
      (ks.foldl (fun c1 k => CacheService.set c1 k "") c).length = c.length + ks.length := by
  induction ks with
  | nil => intro c _ _; simp
  | cons k ks ih =>
    intro c hnd hfresh
    rw [List.foldl_cons]
    rw [ih (CacheService.set c k "") (List.nodup_cons.mp hnd).2 ?fresh]
    case fresh =>
      intro k1 hk1
      have hne : k1 ≠ k := fun hc => (List.nodup_cons.mp hnd).1 (hc ▸ hk1)
      rw [CacheService.set, alookup_aset_ne _ _ _ _ hne]
      exact hfresh k1 (List.mem_cons_of_mem _ hk1)
    rw [CacheService.set, length_aset_of_none _ _ _ (hfresh k (List.mem_cons_self _ _))]
    simp only [List.length_cons]
    omega

set_option maxRecDepth 4000 in
/-- C8 counterexample: starting from the empty cache, 501 `set` calls with
distinct keys leave 501 entries — `CacheService.set` performs no size check,
so immediately after a cache operation the entry count exceeds the
configured maximum `MAX_CACHE_SIZE = 500`. -/
theorem cache_set_exceeds_max :
    (((List.range 501).map (fun n => String.mk (List.replicate n 'a'))).foldl
        (fun c1 k => CacheService.set c1 k "") []).length = 501
    ∧ CacheService.MAX_CACHE_SIZE <
      (((List.range 501).map (fun n => String.mk (List.replicate n 'a'))).foldl
          (fun c1 k => CacheService.set c1 k "") []).length := by
  have hinj : Function.Injective (fun n => String.mk (List.replicate n 'a')) := by
    intro a b hab
    have hdata : List.replicate a 'a' = List.replicate b 'a' := by
      injection hab
    have := congrArg List.length hdata
    simpa using this
  have hnd : ((List.range 501).map (fun n => String.mk (List.replicate n 'a'))).Nodup :=
    (List.nodup_range 501).map hinj
  have hlen := foldl_set_length
    ((List.range 501).map (fun n => String.mk (List.replicate n 'a'))) [] hnd
    (fun k _ => rfl)
  simp only [List.length_nil, List.length_map, List.length_range, Nat.zero_add] at hlen
  exact ⟨hlen, by rw [hlen]; decide⟩

/-- C8 amended: the size bound is enforced only by `save()`: immediately
after `save()` the cache always has fewer than `MAX_CACHE_SIZE` entries
(375 when it had overflowed, its unchanged sub-maximum count otherwise);
`get`/`set`/`load` perform no size check, and repeated `set` calls can push
the entry count past the maximum until the next `save()`. -/
theorem cacheSave_below_max (c : CacheService.Cache) :
    (CacheService.save c).length < CacheService.MAX_CACHE_SIZE := by
  unfold CacheService.save
  by_cases h : CacheService.MAX_CACHE_SIZE ≤ c.length
  · rw [if_pos h]
    rw [List.length_drop]
    have hmax : CacheService.MAX_CACHE_SIZE = 500 := rfl
    rw [hmax] at h ⊢
    omega
  · rw [if_neg h]
    omega

/-! ## Client pass and response lemmas -/

theorem alookup_save_none (c : CacheService.Cache) (k : String)
    (h : alookup c k = none) : alookup (CacheService.save c) k = none := by
  unfold CacheService.save
  by_cases hlen : CacheService.MAX_CACHE_SIZE ≤ c.length
  · rw [if_pos hlen]
    exact alookup_drop_none c k _ h
  · rw [if_neg hlen]
    exact h

theorem save_queue_eq (s1 : ClientState) :
    ({ s1 with cache := CacheService.save s1.cache } : ClientState).queue = s1.queue := rfl

theorem zip_map_self {α β : Type} (l : List α) (f : α → β) :
    l.zip (l.map f) = l.map (fun a => (a, f a)) := by
  induction l with
  | nil => rfl
  | cons x xs ih => simp [ih]

theorem onload_map (s : ClientState) (ch : List String) (r : String → String) :
    APIService.onload s ch (ch.map r) = ch.foldl (APIService.respStep r) s := by
  unfold APIService.onload APIService.respStep
  rw [zip_map_self, List.foldl_map]

theorem runResponses_flatten (s : ClientState) (chunks : List (List String))
    (r : String → String) :
    APIService.runResponses s chunks r = chunks.flatten.foldl (APIService.respStep r) s := by
  unfold APIService.runResponses
  have hfun : (fun s1 ch => APIService.onload s1 ch (ch.map r))
      = fun (s1 : ClientState) (ch : List String) => ch.foldl (APIService.respStep r) s1 := by
    funext s1 ch
    exact onload_map s1 ch r
  rw [hfun, foldl_foldl_flatten]

theorem updateRuby_of_none (s : ClientState) (k : String)
    (h : alookup s.cache k = none) : DOMHandler.updateRubyFromCache s k = s := by
  unfold DOMHandler.updateRubyFromCache CacheService.get
  rw [h]

theorem updateRuby_of_empty (s : ClientState) (k : String)
    (h : alookup s.cache k = some "") : DOMHandler.updateRubyFromCache s k = s := by
  unfold DOMHandler.updateRubyFromCache CacheService.get
  rw [h]
  simp

theorem respStep_eq (r : String → String) (s : ClientState) (k1 : String) :
    APIService.respStep r s k1 =
      if r k1 = "" then { s with cache := aset s.cache k1 (r k1) }
      else ⟨aset s.cache k1 (r k1), aerase s.queue k1,
        s.written ++ ((alookup s.queue k1).getD []).map (fun n => (k1, n, r k1))⟩ := by
  unfold APIService.respStep DOMHandler.updateRubyFromCache CacheService.get CacheService.set
  simp only [alookup_aset_self]

theorem respFold_resolves (r : String → String) :
    ∀ (entries : List (String × List Nat)) (s : ClientState),
      s.queue = entries →
      (entries.map Prod.fst).Nodup →
      (∀ k ∈ entries.map Prod.fst, alookup s.cache k = none) →
      (∀ k ∈ entries.map Prod.fst, r k ≠ "") →
      ((entries.map Prod.fst).foldl (APIService.respStep r) s).queue = []
      ∧ ((entries.map Prod.fst).foldl (APIService.respStep r) s).written
          = s.written ++ entries.flatMap (fun e => e.2.map (fun n => (e.1, n, r e.1))) := by
  intro entries
  induction entries with
  | nil =>
    intro s hq _ _ _
    simp [hq]
  | cons e rest ih =>
    intro s hq hnd hc hr
    obtain ⟨k, S⟩ := e
    have hrk : r k ≠ "" := hr k (by simp)
    have hstep : APIService.respStep r s k
        = ⟨aset s.cache k (r k), rest, s.written ++ S.map (fun n => (k, n, r k))⟩ := by
      rw [respStep_eq, if_neg hrk, hq]
      simp [aerase, alookup]
    simp only [List.map_cons, List.foldl_cons, hstep]
    have hnd1 : k ∉ rest.map Prod.fst ∧ (rest.map Prod.fst).Nodup := by
      rw [List.map_cons, List.nodup_cons] at hnd
      exact hnd
    have hih := ih ⟨aset s.cache k (r k), rest, s.written ++ S.map (fun n => (k, n, r k))⟩
      rfl hnd1.2 ?cfresh (fun k1 hk1 => hr k1 (List.mem_cons_of_mem _ hk1))
    case cfresh =>
      intro k1 hk1
      have hne : k1 ≠ k := fun hcc => hnd1.1 (hcc ▸ hk1)
      rw [alookup_aset_ne _ _ _ _ hne]
      exact hc k1 (List.mem_cons_of_mem _ hk1)
    refine ⟨hih.1, ?_⟩
    rw [hih.2]
    simp [List.append_assoc]


theorem convertToHiragana_all_fresh (c : CacheService.Cache) (kanjis : List String)
    (hne : kanjis ≠ []) (hfresh : ∀ k ∈ kanjis, alookup c k = none) :
    APIService.convertToHiragana c kanjis = some kanjis := by
  unfold APIService.convertToHiragana
  rw [if_neg (by simp [List.isEmpty_iff, hne])]
  have hfilter : kanjis.filter (fun k => !CacheService.has c k) = kanjis := by
    rw [List.filter_eq_self]
    intro k hk
    simp [CacheService.has, hfresh k hk]
  simp only [hfilter]
  rw [if_neg (by simp [List.isEmpty_iff, hne])]

theorem convertToHiragana_sub (c : CacheService.Cache) (kanjis ks : List String)
    (h : APIService.convertToHiragana c kanjis = some ks) : ∀ x ∈ ks, x ∈ kanjis := by
  unfold APIService.convertToHiragana at h
  by_cases h1 : kanjis.isEmpty
  · rw [if_pos h1] at h
    exact absurd h (by simp)
  · rw [if_neg h1] at h
    simp only at h
    by_cases h2 : (kanjis.filter (fun k => !CacheService.has c k)).isEmpty
    · rw [if_pos h2] at h
      exact absurd h (by simp)
    · rw [if_neg h2] at h
      have hks := Option.some.inj h
      intro x hx
      rw [← hks] at hx
      exact (List.mem_filter.mp hx).1

theorem passStep_fresh (cs : Nat) (s : ClientState) (ch0 : List String)
    (d0 : List (List String)) (k : String)
    (hfr : ∀ k1 ∈ ch0 ++ [k], alookup s.cache k1 = none) :
    APIService.passStep cs (s, ch0, d0) k
      = if cs ≤ (ch0 ++ [k]).length
          then (s, [], d0 ++ [ch0 ++ [k]])
          else (s, ch0 ++ [k], d0) := by
  have hhas : CacheService.has s.cache k = false := by
    simp [CacheService.has, hfr k (by simp)]
  unfold APIService.passStep
  simp only [hhas, Bool.false_eq_true, if_false]
  by_cases hfull : cs ≤ (ch0 ++ [k]).length
  · rw [if_pos hfull, if_pos hfull,
      convertToHiragana_all_fresh s.cache (ch0 ++ [k]) (by simp) hfr]
  · rw [if_neg hfull, if_neg hfull]

theorem passFold_no_hits (cs : Nat) (s : ClientState) :
    ∀ (ks ch0 : List String) (d0 : List (List String)),
      (∀ k ∈ ch0 ++ ks, alookup s.cache k = none) →
      ∃ chF dF,
        ks.foldl (APIService.passStep cs) (s, ch0, d0) = (s, chF, d0 ++ dF)
        ∧ dF.flatten ++ chF = ch0 ++ ks
        ∧ (∀ k ∈ chF, alookup s.cache k = none) := by
  intro ks
  induction ks with
  | nil =>
    intro ch0 d0 hfr
    exact ⟨ch0, [], by simp, by simp, fun k hk => hfr k (by simp [hk])⟩
  | cons k ks ih =>
    intro ch0 d0 hfr
    have hsub : ∀ k1 ∈ ch0 ++ [k], alookup s.cache k1 = none := by
      intro k1 hk1
      rcases List.mem_append.mp hk1 with h1 | h1
      · exact hfr k1 (List.mem_append.mpr (Or.inl h1))
      · simp only [List.mem_singleton] at h1
        exact hfr k1 (by simp [h1])
    rw [List.foldl_cons, passStep_fresh cs s ch0 d0 k hsub]
    by_cases hfull : cs ≤ (ch0 ++ [k]).length
    · rw [if_pos hfull]
      obtain ⟨chF, dF, heq, hjoin, hch⟩ := ih [] (d0 ++ [ch0 ++ [k]])
        (fun k1 hk1 => hfr k1 (by
          simp only [List.nil_append] at hk1
          simp [hk1]))
      refine ⟨chF, (ch0 ++ [k]) :: dF, ?_, ?_, hch⟩
      · rw [heq]
        simp
      · simp only [List.nil_append] at hjoin
        simp only [List.flatten_cons]
        rw [List.append_assoc, hjoin]
        simp
    · rw [if_neg hfull]
      obtain ⟨chF, dF, heq, hjoin, hch⟩ := ih (ch0 ++ [k]) d0
        (fun k1 hk1 => hfr k1 (by
          rcases List.mem_append.mp hk1 with h1 | h1
          · rcases List.mem_append.mp h1 with h2 | h2
            · simp [h2]
            · simp only [List.mem_singleton] at h2
              simp [h2]
          · simp [h1]))
      refine ⟨chF, dF, heq, ?_, hch⟩
      rw [hjoin]
      simp

theorem processQueue_eq_of_fold (cs : Nat) (s s1 : ClientState) (chF : List String)
    (dF : List (List String))
    (heq : List.foldl (APIService.passStep cs) (s, [], []) (s.queue.map Prod.fst)
      = (s1, chF, dF)) :
    APIService.processQueue cs s
      = ({ s1 with cache := CacheService.save s1.cache },
          match APIService.convertToHiragana s1.cache chF with
          | some ks => dF ++ [ks]
          | none => dF) := by
  unfold APIService.processQueue
  rw [heq]

theorem processQueue_no_hits (cs : Nat) (s : ClientState)
    (hc : ∀ k ∈ s.queue.map Prod.fst, alookup s.cache k = none) :
    ∃ chunks,
      APIService.processQueue cs s = ({ s with cache := CacheService.save s.cache }, chunks)
      ∧ chunks.flatten = s.queue.map Prod.fst
      ∧ ∀ k ∈ chunks.flatten, alookup s.cache k = none := by
  obtain ⟨chF, dF, heq, hjoin, hch⟩ := passFold_no_hits cs s (s.queue.map Prod.fst) [] []
    (by simpa using hc)
  simp only [List.nil_append] at heq hjoin
  rw [processQueue_eq_of_fold cs s s chF dF heq]
  cases hchF : chF with
  | nil =>
    subst hchF
    simp only [List.append_nil] at hjoin
    refine ⟨dF, ?_, hjoin, ?_⟩
    · simp [APIService.convertToHiragana]
    · intro k hk
      exact hc k (hjoin ▸ hk)
  | cons x xs =>
    rw [← hchF]
    rw [convertToHiragana_all_fresh s.cache chF (by rw [hchF]; simp) hch]
    refine ⟨dF ++ [chF], rfl, ?_, ?_⟩
    · rw [List.flatten_append]
      simpa using hjoin
    · intro k hk
      rw [List.flatten_append] at hk
      simp only [List.flatten_cons, List.flatten_nil, List.append_nil] at hk
      rcases List.mem_append.mp hk with h1 | h1
      · apply hc
        rw [← hjoin]
        exact List.mem_append.mpr (Or.inl h1)
      · exact hch k h1

/-- C3: for a queue of uniquely-keyed entries none of which is cached, one
`processQueue` pass dispatches every key, and after all dispatched chunk
requests complete successfully with one (non-empty) reading per requested
key, every sink of every key has been written exactly once — the write log
grows by exactly one `(key, sink, reading)` triple per queued sink — and
the queue is empty. -/
theorem batch_pass_completeness (cs : Nat) (s : ClientState) (r : String → String)
    (hnd : (s.queue.map Prod.fst).Nodup)
    (hc : ∀ k ∈ s.queue.map Prod.fst, alookup s.cache k = none)
    (hr : ∀ k ∈ s.queue.map Prod.fst, r k ≠ "") :
    (APIService.runResponses (APIService.processQueue cs s).1
        (APIService.processQueue cs s).2 r).queue = []
    ∧ (APIService.runResponses (APIService.processQueue cs s).1
          (APIService.processQueue cs s).2 r).written
        = s.written ++ s.queue.flatMap (fun e => e.2.map (fun n => (e.1, n, r e.1))) := by
  obtain ⟨chunks, hpq, hflat, _⟩ := processQueue_no_hits cs s hc
  rw [hpq]
  simp only [runResponses_flatten, hflat]
  exact respFold_resolves r s.queue { s with cache := CacheService.save s.cache } rfl hnd
    (fun k hk => alookup_save_none s.cache k (hc k hk)) hr

/-- C3 witness: two fresh queued keys with one sink each, chunk size 1 (two
chunks), both responses non-empty: both sinks written once, queue drained. -/
theorem batch_pass_completeness_witness :
    ((⟨[], [("日", [0]), ("本", [1])], []⟩ : ClientState).queue.map Prod.fst).Nodup
    ∧ ((APIService.runResponses
          (APIService.processQueue 1 ⟨[], [("日", [0]), ("本", [1])], []⟩).1
          (APIService.processQueue 1 ⟨[], [("日", [0]), ("本", [1])], []⟩).2
          (fun k => if k = "日" then "にち" else "ほん")).queue = []
        ∧ (APIService.runResponses
            (APIService.processQueue 1 ⟨[], [("日", [0]), ("本", [1])], []⟩).1
            (APIService.processQueue 1 ⟨[], [("日", [0]), ("本", [1])], []⟩).2
            (fun k => if k = "日" then "にち" else "ほん")).written
          = (⟨[], [("日", [0]), ("本", [1])], []⟩ : ClientState).written
            ++ (⟨[], [("日", [0]), ("本", [1])], []⟩ : ClientState).queue.flatMap
                (fun e => e.2.map (fun n =>
                  (e.1, n, (fun k => if k = "日" then "にち" else "ほん") e.1)))) :=
  ⟨by decide,
    batch_pass_completeness 1 ⟨[], [("日", [0]), ("本", [1])], []⟩
      (fun k => if k = "日" then "にち" else "ほん")
      (by decide) (by decide) (by decide)⟩

theorem save_id_of_lt (c : CacheService.Cache) (h : c.length < CacheService.MAX_CACHE_SIZE) :
    CacheService.save c = c := by
  unfold CacheService.save
  rw [if_neg (by omega)]

theorem updateRuby_eq_of_some (s : ClientState) (k1 : String) (v : String)
    (hget : alookup s.cache k1 = some v) (hv : v ≠ "") :
    DOMHandler.updateRubyFromCache s k1
      = ⟨s.cache, aerase s.queue k1,
          s.written ++ ((alookup s.queue k1).getD []).map (fun n => (k1, n, v))⟩ := by
  unfold DOMHandler.updateRubyFromCache CacheService.get
  rw [hget]
  simp only [if_neg hv]

theorem passFold_keeps_empty (cs : Nat) (k : String) (S : List Nat) :
    ∀ (ks : List String) (s : ClientState) (ch0 : List String) (d0 : List (List String)),
      alookup s.cache k = some "" →
      alookup s.queue k = some S →
      (∀ x ∈ ch0, alookup s.cache x = none) →
      (∀ ch ∈ d0, k ∉ ch) →
      ((ks.foldl (APIService.passStep cs) (s, ch0, d0)).1.cache = s.cache
       ∧ alookup (ks.foldl (APIService.passStep cs) (s, ch0, d0)).1.queue k = some S
       ∧ (∀ w ∈ (ks.foldl (APIService.passStep cs) (s, ch0, d0)).1.written,
            w ∈ s.written ∨ w.1 ≠ k)
       ∧ (∀ x ∈ (ks.foldl (APIService.passStep cs) (s, ch0, d0)).2.1,
            alookup s.cache x = none)
       ∧ (∀ ch ∈ (ks.foldl (APIService.passStep cs) (s, ch0, d0)).2.2, k ∉ ch)) := by
  intro ks
  induction ks with
  | nil =>
    intro s ch0 d0 hc hq hch0 hd0
    exact ⟨rfl, hq, fun w hw => Or.inl hw, hch0, hd0⟩
  | cons k1 ks ih =>
    intro s ch0 d0 hc hq hch0 hd0
    rw [List.foldl_cons]
    by_cases hhas : CacheService.has s.cache k1 = true
    · have hstep : APIService.passStep cs (s, ch0, d0) k1
          = (DOMHandler.updateRubyFromCache s k1, ch0, d0) := by
        unfold APIService.passStep
        simp only [hhas, eq_self_iff_true, if_true]
      rw [hstep]
      obtain ⟨v, hv⟩ := Option.isSome_iff_exists.mp (by simpa [CacheService.has] using hhas)
      by_cases hve : v = ""
      · rw [updateRuby_of_empty s k1 (hve ▸ hv)]
        exact ih s ch0 d0 hc hq hch0 hd0
      · have hk1k : k1 ≠ k := by
          intro hcc
          rw [hcc, hc] at hv
          exact hve (Option.some.inj hv).symm
        rw [updateRuby_eq_of_some s k1 v hv hve]
        have hres := ih ⟨s.cache, aerase s.queue k1,
            s.written ++ ((alookup s.queue k1).getD []).map (fun n => (k1, n, v))⟩
          ch0 d0 hc (by
            rw [show (⟨s.cache, aerase s.queue k1, _⟩ : ClientState).queue
                = aerase s.queue k1 from rfl]
            rw [alookup_aerase_ne s.queue k1 k (fun hcc => hk1k hcc.symm)]
            exact hq)
          hch0 hd0
        refine ⟨hres.1, hres.2.1, ?_, hres.2.2.2.1, hres.2.2.2.2⟩
        intro w hw
        rcases hres.2.2.1 w hw with h1 | h1
        · rcases List.mem_append.mp h1 with h2 | h2
          · exact Or.inl h2
          · right
            obtain ⟨n, _, hn⟩ := List.mem_map.mp h2
            rw [← hn]
            exact hk1k
        · exact Or.inr h1
    · have hk1 : alookup s.cache k1 = none := by
        rcases ho : alookup s.cache k1 with _ | v
        · rfl
        · exact absurd (by simp [CacheService.has, ho]) hhas
      have hk1k : k1 ≠ k := fun hcc => by rw [hcc, hc] at hk1; exact Option.noConfusion hk1
      have hsub : ∀ x ∈ ch0 ++ [k1], alookup s.cache x = none := by
        intro x hx
        rcases List.mem_append.mp hx with h1 | h1
        · exact hch0 x h1
        · simp only [List.mem_singleton] at h1
          exact h1 ▸ hk1
      rw [passStep_fresh cs s ch0 d0 k1 hsub]
      by_cases hfull : cs ≤ (ch0 ++ [k1]).length
      · rw [if_pos hfull]
        apply ih s [] (d0 ++ [ch0 ++ [k1]]) hc hq (by simp)
        intro ch hch
        rcases List.mem_append.mp hch with h1 | h1
        · exact hd0 ch h1
        · simp only [List.mem_singleton] at h1
          subst h1
          intro hkmem
          rcases List.mem_append.mp hkmem with h2 | h2
          · exact Option.noConfusion ((hch0 k h2).symm.trans hc)
          · simp only [List.mem_singleton] at h2
            exact hk1k h2.symm
      · rw [if_neg hfull]
        exact ih s (ch0 ++ [k1]) d0 hc hq hsub hd0

theorem processQueue_keeps_empty (cs : Nat) (s : ClientState) (k : String) (S : List Nat)
    (hc : alookup s.cache k = some "") (hq : alookup s.queue k = some S)
    (hsize : s.cache.length < CacheService.MAX_CACHE_SIZE) :
    (APIService.processQueue cs s).1.cache = s.cache
    ∧ alookup (APIService.processQueue cs s).1.queue k = some S
    ∧ (∀ w ∈ (APIService.processQueue cs s).1.written, w ∈ s.written ∨ w.1 ≠ k)
    ∧ ∀ ch ∈ (APIService.processQueue cs s).2, k ∉ ch := by
  rcases hfold : List.foldl (APIService.passStep cs) (s, [], []) (s.queue.map Prod.fst)
    with ⟨s1, chF, dF⟩
  have hinv := passFold_keeps_empty cs k S (s.queue.map Prod.fst) s [] [] hc hq
    (by simp) (by simp)
  rw [hfold] at hinv
  obtain ⟨hcache, hq1, hwr, hchF, hdF⟩ := hinv
  rw [processQueue_eq_of_fold cs s s1 chF dF hfold]
  have hkchF : k ∉ chF := by
    intro hmem
    exact Option.noConfusion ((hchF k hmem).symm.trans hc)
  have hsave : CacheService.save s1.cache = s.cache := by
    rw [hcache, save_id_of_lt s.cache hsize]
  cases hcv : APIService.convertToHiragana s1.cache chF with
  | none =>
    simp only
    exact ⟨hsave, hq1, hwr, hdF⟩
  | some ks1 =>
    simp only
    refine ⟨hsave, hq1, hwr, ?_⟩
    intro ch hch
    rcases List.mem_append.mp hch with h1 | h1
    · exact hdF ch h1
    · simp only [List.mem_singleton] at h1
      subst h1
      intro hkmem
      exact hkchF (convertToHiragana_sub s1.cache chF ch hcv k hkmem)

theorem respFold_keeps_empty (r : String → String) (k : String) (S : List Nat) :
    ∀ (ks : List String) (s : ClientState),
      k ∉ ks →
      alookup s.cache k = some "" →
      alookup s.queue k = some S →
      (alookup (ks.foldl (APIService.respStep r) s).cache k = some ""
       ∧ alookup (ks.foldl (APIService.respStep r) s).queue k = some S
       ∧ ∀ w ∈ (ks.foldl (APIService.respStep r) s).written, w ∈ s.written ∨ w.1 ≠ k) := by
  intro ks
  induction ks with
  | nil =>
    intro s _ hc hq
    exact ⟨hc, hq, fun w hw => Or.inl hw⟩
  | cons k1 ks ih =>
    intro s hkmem hc hq
    have hk1k : k1 ≠ k := fun hcc => hkmem (by simp [hcc])
    have hkks : k ∉ ks := fun hcc => hkmem (List.mem_cons_of_mem _ hcc)
    have hkk1 : k ≠ k1 := fun hcc => hk1k hcc.symm
    rw [List.foldl_cons, respStep_eq]
    by_cases hr1 : r k1 = ""
    · rw [if_pos hr1]
      have := ih { s with cache := aset s.cache k1 (r k1) } hkks
        (by rw [show ({ s with cache := aset s.cache k1 (r k1) } : ClientState).cache
              = aset s.cache k1 (r k1) from rfl,
            alookup_aset_ne s.cache k1 k (r k1) hkk1]
            exact hc)
        hq
      exact this
    · rw [if_neg hr1]
      have hres := ih ⟨aset s.cache k1 (r k1), aerase s.queue k1,
          s.written ++ ((alookup s.queue k1).getD []).map (fun n => (k1, n, r k1))⟩ hkks
        (by rw [show (⟨aset s.cache k1 (r k1), aerase s.queue k1, _⟩ : ClientState).cache
              = aset s.cache k1 (r k1) from rfl,
            alookup_aset_ne s.cache k1 k (r k1) hkk1]
            exact hc)
        (by rw [show (⟨aset s.cache k1 (r k1), aerase s.queue k1, _⟩ : ClientState).queue
              = aerase s.queue k1 from rfl,
            alookup_aerase_ne s.queue k1 k hkk1]
            exact hq)
      refine ⟨hres.1, hres.2.1, ?_⟩
      intro w hw
      rcases hres.2.2 w hw with h1 | h1
      · rcases List.mem_append.mp h1 with h2 | h2
        · exact Or.inl h2
        · right
          obtain ⟨n, _, hn⟩ := List.mem_map.mp h2
          rw [← hn]
          exact hk1k
      · exact Or.inr h1

set_option maxRecDepth 100000 in
/-- C9 counterexample: the claim promises that a key cached as `""` is
dispatched by no subsequent pass and that its sinks are never resolved for
the rest of the session.  With the 500-entry `evictionCache` whose oldest
entry is `("日", "")` and `日` queued with sink `0`: the first pass indeed
dispatches nothing and keeps the queue entry, but its final `save()` evicts
the poisoned entry (`alookup` of the new cache is `none`); the *second*
pass then dispatches the chunk `["日"]`, and its response writes the sink —
`("日", 0, "にち")` — refuting both "every subsequent batch pass skips it
as a cache hit without dispatching any network request" and "such a key's
sinks are never resolved for the rest of the session". -/
theorem empty_reading_resolved_after_eviction :
    (APIService.processQueue 200 ⟨evictionCache, [("日", [0])], []⟩).2 = []
    ∧ alookup (APIService.processQueue 200 ⟨evictionCache, [("日", [0])], []⟩).1.queue "日"
        = some [0]
    ∧ alookup (APIService.processQueue 200 ⟨evictionCache, [("日", [0])], []⟩).1.cache "日"
        = none
    ∧ (APIService.processQueue 200
        (APIService.processQueue 200 ⟨evictionCache, [("日", [0])], []⟩).1).2 = [["日"]]
    ∧ (APIService.runResponses
        (APIService.processQueue 200
          (APIService.processQueue 200 ⟨evictionCache, [("日", [0])], []⟩).1).1
        (APIService.processQueue 200
          (APIService.processQueue 200 ⟨evictionCache, [("日", [0])], []⟩).1).2
        (fun _ => "にち")).written = [("日", 0, "にち")] := by
  decide

/-- C9 amended: a batch pass that *begins* with the key's cached reading
equal to `""` and the cache below the eviction threshold (so that the
pass's final `save()` cannot evict the entry) skips the key as a cache hit:
the key is dispatched in no network chunk, and after the pass and all chunk
responses its cached reading is still `""`, its queue entry (with its full
sink list) is still present, and no `(key, sink, reading)` write for it has
been added.  The key's sinks therefore stay unresolved as long as every
pass starts below the eviction threshold; once `save()` eviction removes
the poisoned entry, a later pass may re-dispatch and resolve them. -/
theorem empty_reading_stuck (cs : Nat) (s : ClientState) (k : String) (S : List Nat)
    (r : String → String)
    (hc : alookup s.cache k = some "")
    (hq : alookup s.queue k = some S)
    (hsize : s.cache.length < CacheService.MAX_CACHE_SIZE) :
    (∀ ch ∈ (APIService.processQueue cs s).2, k ∉ ch)
    ∧ alookup (APIService.runResponses (APIService.processQueue cs s).1
        (APIService.processQueue cs s).2 r).cache k = some ""
    ∧ alookup (APIService.runResponses (APIService.processQueue cs s).1
        (APIService.processQueue cs s).2 r).queue k = some S
    ∧ ∀ w ∈ (APIService.runResponses (APIService.processQueue cs s).1
        (APIService.processQueue cs s).2 r).written, w.1 = k → w ∈ s.written := by
  obtain ⟨hcache, hq1, hwr, hnochunk⟩ := processQueue_keeps_empty cs s k S hc hq hsize
  rw [runResponses_flatten]
  have hkflat : k ∉ (APIService.processQueue cs s).2.flatten := by
    intro hmem
    obtain ⟨ch, hch, hkch⟩ := List.mem_flatten.mp hmem
    exact hnochunk ch hch hkch
  have hresp := respFold_keeps_empty r k S (APIService.processQueue cs s).2.flatten
    (APIService.processQueue cs s).1 hkflat (by rw [hcache]; exact hc) hq1
  refine ⟨hnochunk, hresp.1, hresp.2.1, ?_⟩
  intro w hw hwk
  rcases hresp.2.2 w hw with h1 | h1
  · rcases hwr w h1 with h2 | h2
    · exact h2
    · exact absurd hwk h2
  · exact absurd hwk h1

/-- C9 witness: the key "日" cached as `""` with one queued sink: the pass
dispatches nothing for it and after response handling it is still cached
`""`, still queued with its sink, and nothing was written. -/
theorem empty_reading_stuck_witness :
    (∀ ch ∈ (APIService.processQueue 200 ⟨[("日", "")], [("日", [0])], []⟩).2, "日" ∉ ch)
    ∧ alookup (APIService.runResponses
        (APIService.processQueue 200 ⟨[("日", "")], [("日", [0])], []⟩).1
        (APIService.processQueue 200 ⟨[("日", "")], [("日", [0])], []⟩).2
        (fun _ => "よみ")).cache "日" = some ""
    ∧ alookup (APIService.runResponses
        (APIService.processQueue 200 ⟨[("日", "")], [("日", [0])], []⟩).1
        (APIService.processQueue 200 ⟨[("日", "")], [("日", [0])], []⟩).2
        (fun _ => "よみ")).queue "日" = some [0]
    ∧ ∀ w ∈ (APIService.runResponses
        (APIService.processQueue 200 ⟨[("日", "")], [("日", [0])], []⟩).1
        (APIService.processQueue 200 ⟨[("日", "")], [("日", [0])], []⟩).2
        (fun _ => "よみ")).written, w.1 = "日" →
          w ∈ (⟨[("日", "")], [("日", [0])], []⟩ : ClientState).written :=
  empty_reading_stuck 200 ⟨[("日", "")], [("日", [0])], []⟩ "日" [0] (fun _ => "よみ")
    (by decide) (by decide) (by decide)
